import Mathlib

/-!
Shallow embedding of the self-referential buffer / shared line-reader library
(`buffer.rs`, `reader.rs`, `pair.rs`).  Bytes are modelled as `Nat`;
allocation identity of a reference-counted buffer is modelled by a `Nat`
tag handed out from a monotone fresh-id supply carried in the reader.
The byte source is modelled as a state machine that, given its state and the
length of the writable region, returns either bytes written (the empty list
signalling end-of-stream) or an error, together with its next state.
Fallible cursor operations (`consume`, `fill`, `append`, whose contract
violations abort the Rust process) return `Option`.
The `read_line` accumulation loop takes explicit fuel; exhausting fuel or a
contract violation yields `.fail`, which never occurs in the verified runs.
-/

namespace SelfRef

/-- A byte, as a natural number (line feed is 10). -/
abbrev Byte := Nat

/-- `buf.iter().position(|&b| b == b'\n')` from `reader.rs`. -/
def find_lf : List Byte → Option Nat
  | [] => none
  | b :: l => if b = 10 then some 0 else (find_lf l).map (· + 1)

/-- Overwrite `data` starting at position `pos` with `bs`, keeping the rest. -/
def writeAt (data : List Byte) (pos : Nat) (bs : List Byte) : List Byte :=
  data.take pos ++ bs ++ data.drop (pos + bs.length)

/-- A persistent reference-counted buffer handle (`Buf` in `buffer.rs`).
Equality is allocation identity (`Rc::ptr_eq`), modelled by the id tag. -/
structure Buf where
  id : Nat
deriving DecidableEq

/-- A reference to a buffer and a slice within it (`Bytes` in `buffer.rs`).
The slice content is snapshotted, sound because filled bytes are never
overwritten. -/
structure Bytes where
  buf : Buf
  slice : List Byte
deriving DecidableEq

/-- The exclusive mutable handle into the current buffer (`BufMut`).
`data` always has length equal to the allocation capacity. -/
structure BufMut where
  id : Nat
  data : List Byte
  consumed : Nat
  filled : Nat
deriving DecidableEq

namespace BufMut

/-- `BufMut::new(capacity)`: zero-filled buffer, cursors at zero.  The fresh
allocation identity is supplied by the caller. -/
def new (capacity : Nat) (id : Nat) : BufMut :=
  ⟨id, List.replicate capacity 0, 0, 0⟩

/-- The bytes of `[consumed, filled)` (`BufMut::available`). -/
def available (b : BufMut) : List Byte :=
  (b.data.drop b.consumed).take (b.filled - b.consumed)

/-- Length of the writable region `[filled, capacity)` (`BufMut::unfilled`). -/
def unfilledLen (b : BufMut) : Nat :=
  b.data.length - b.filled

/-- `BufMut::consume(n)`: asserts `consumed + n <= filled` (abort on
violation, modelled by `none`), advances `consumed`, returns the slice. -/
def consume (b : BufMut) (n : Nat) : Option (List Byte × BufMut) :=
  if b.consumed + n ≤ b.filled then
    some ((b.data.drop b.consumed).take n, { b with consumed := b.consumed + n })
  else none

/-- `BufMut::fill(n)`: asserts `filled + n <= capacity` (abort on violation),
advances `filled`, returns the newly filled slice. -/
def fill (b : BufMut) (n : Nat) : Option (List Byte × BufMut) :=
  if b.filled + n ≤ b.data.length then
    some ((b.data.drop b.filled).take n, { b with filled := b.filled + n })
  else none

/-- `BufMut::append(data)`: copies `data` into the unfilled region (panics
when it does not fit, modelled by `none`) and advances `filled`.  This also
models a source writing `data` into `unfilled()` followed by
`fill(data.len())`. -/
def append (b : BufMut) (bs : List Byte) : Option BufMut :=
  if bs.length ≤ b.unfilledLen then
    some { b with data := writeAt b.data b.filled bs, filled := b.filled + bs.length }
  else none

/-- `BufMut::borrow()`: a shared handle to the same allocation. -/
def borrow (b : BufMut) : Buf := ⟨b.id⟩

/-- Cursor well-formedness: `consumed ≤ filled ≤ capacity`. -/
def WF (b : BufMut) : Prop := b.consumed ≤ b.filled ∧ b.filled ≤ b.data.length

instance (b : BufMut) : Decidable b.WF := by unfold WF; infer_instance

end BufMut

/-- Outcome of one `Read::read` call of the byte source: bytes actually
written into the destination (`[]` signals end-of-stream) or an error. -/
inductive ReadOut (ε : Type) where
  | bytes (bs : List Byte)
  | error (e : ε)
deriving DecidableEq

/-- A byte source: a state machine consuming the writable length. -/
structure Source (σ ε : Type) where
  read : σ → Nat → ReadOut ε × σ

/-- The shared line reader (`SharedReader` in `reader.rs`), with the source
state, the current fill handle, the configured initial capacity, and the
fresh-id supply standing for the allocator. -/
structure SharedReader (σ ε : Type) where
  src : σ
  buf : BufMut
  initial_capacity : Nat
  nextId : Nat
deriving DecidableEq

namespace SharedReader

variable {σ ε : Type}

/-- `SharedReader::new(reader, initial_capacity)`. -/
def new (src : σ) (initial_capacity : Nat) : SharedReader σ ε :=
  ⟨src, BufMut.new initial_capacity 0, initial_capacity, 1⟩

/-- The growth step of `read_line`: allocate a new buffer of capacity
`(available.len() * 2).max(initial_capacity)`, append the available bytes,
replace the current handle. -/
def grow (r : SharedReader σ ε) : Option (SharedReader σ ε) :=
  let avail := r.buf.available
  let newBuf := BufMut.new (max (avail.length * 2) r.initial_capacity) r.nextId
  match newBuf.append avail with
  | some b => some { r with buf := b, nextId := r.nextId + 1 }
  | none => none

/-- Grow exactly when `unfilled()` is empty, as in the loop of `read_line`. -/
def growIf (r : SharedReader σ ε) : Option (SharedReader σ ε) :=
  if r.buf.unfilledLen = 0 then r.grow else some r

/-- `SharedReader::buffer()`. -/
def buffer (r : SharedReader σ ε) : Buf := r.buf.borrow

end SharedReader

/-- Result of `read_line`.  `ok` carries the returned `Bytes`, the updated
reader, the bytes delivered by the source during this call (a ghost used to
state conservation), and whether this call observed end-of-stream.
`err` carries the propagated source error, the updated reader and the ghost.
`fail` stands for fuel exhaustion or an aborted contract violation. -/
inductive LineRes (σ ε : Type) where
  | ok (line : Bytes) (r : SharedReader σ ε) (got : List Byte) (eof : Bool)
  | err (e : ε) (r : SharedReader σ ε) (got : List Byte)
  | fail

namespace SharedReader

variable {σ ε : Type}

/-- The tail of `read_line`: `consume(len)` and wrap the slice with a
borrowed handle of the current buffer. -/
def finishLine (r : SharedReader σ ε) (len : Nat) (got : List Byte) (eof : Bool) :
    LineRes σ ε :=
  match r.buf.consume len with
  | some (line, b) => .ok ⟨b.borrow, line⟩ { r with buf := b } got eof
  | none => .fail

/-- The accumulation loop of `read_line`: grow when unfilled is empty, read
from the source, stop at end-of-stream or at a line feed in the newly
filled span. -/
def readLineLoop (S : Source σ ε) : Nat → SharedReader σ ε → Nat → List Byte → LineRes σ ε
  | 0, _, _, _ => .fail
  | fuel + 1, r, len, acc =>
    match growIf r with
    | none => .fail
    | some r1 =>
      match S.read r1.src r1.buf.unfilledLen with
      | (.error e, s') => .err e { r1 with src := s' } acc
      | (.bytes bs, s') =>
        if bs = [] then
          finishLine { r1 with src := s' } len acc true
        else
          match r1.buf.append bs with
          | none => .fail
          | some b2 =>
            match find_lf bs with
            | some i => finishLine { r1 with src := s', buf := b2 } (len + i + 1) (acc ++ bs) false
            | none => readLineLoop S fuel { r1 with src := s', buf := b2 } (len + bs.length) (acc ++ bs)

/-- `SharedReader::read_line()`. -/
def read_line (r : SharedReader σ ε) (S : Source σ ε) (fuel : Nat) : LineRes σ ε :=
  match find_lf r.buf.available with
  | some i => finishLine r (i + 1) [] false
  | none => readLineLoop S fuel r r.buf.available.length []

end SharedReader

/-- Drive `n` successive `read_line` calls, collecting the returned slices,
the final reader, the concatenation of all source-delivered bytes, and the
end-of-stream flag of the final call. -/
def readLines {σ ε : Type} (S : Source σ ε) (fuel : Nat) :
    Nat → SharedReader σ ε → Option (List Bytes × SharedReader σ ε × List Byte × Bool)
  | 0, r => some ([], r, [], false)
  | n + 1, r =>
    match r.read_line S fuel with
    | .ok line r' got eof =>
      match readLines S fuel n r' with
      | some (lines, r'', got', eof') =>
        some (line :: lines, r'', got ++ got', if n = 0 then eof else eof')
      | none => none
    | _ => none

/-- A source wrapping a byte list, returning at most `limit` bytes per call
(the `LimitReader` of `tests.rs` over an in-memory slice). -/
def limitSource (limit : Nat) {ε : Type} : Source (List Byte) ε :=
  ⟨fun s n => (.bytes (s.take (min n limit)), s.drop (min n limit))⟩

/-- The bytes of a string, for concrete scenarios. -/
def strBytes (s : String) : List Byte := s.data.map Char.toNat

/-! ### List helpers -/

theorem take_append_len {α : Type} (A B : List α) (k : Nat) :
    (A ++ B).take (A.length + k) = A ++ B.take k := by
  induction A with
  | nil => simp
  | cons a A ih => simp [Nat.succ_add, ih]

theorem drop_append_len {α : Type} (A B : List α) (k : Nat) :
    (A ++ B).drop (A.length + k) = B.drop k := by
  induction A with
  | nil => simp
  | cons a A ih => simp [Nat.succ_add, ih]

theorem drop_take_comm {α : Type} (l : List α) (m n : Nat) :
    (l.take m).drop n = (l.drop n).take (m - n) := by
  induction l generalizing m n with
  | nil => simp
  | cons a l ih =>
    cases m with
    | zero => simp
    | succ m =>
      cases n with
      | zero => simp
      | succ n => simpa [Nat.succ_sub_succ] using ih m n

theorem take_len_append {α : Type} (A B : List α) : (A ++ B).take A.length = A := by
  induction A with
  | nil => simp
  | cons a A ih => simp [ih]

theorem drop_append_le {α : Type} (A B : List α) (n : Nat) (h : n ≤ A.length) :
    (A ++ B).drop n = A.drop n ++ B := by
  induction A generalizing n with
  | nil => simp_all
  | cons a A ih =>
    cases n with
    | zero => simp
    | succ n => simpa using ih n (Nat.le_of_succ_le_succ h)

/-- `find_lf` returns an index within the list, pointing at a line feed. -/
theorem find_lf_some_lt : ∀ (l : List Byte) (i : Nat), find_lf l = some i → i < l.length := by
  intro l
  induction l with
  | nil => intro i h; simp [find_lf] at h
  | cons b l ih =>
    intro i h
    by_cases hb : b = 10
    · simp [find_lf, hb] at h
      simp [← h]
    · simp [find_lf, hb] at h
      obtain ⟨j, hj, rfl⟩ := h
      have := ih j hj
      simp
      omega

/-! ### BufMut operation specifications -/

namespace BufMut

variable (b : BufMut)

theorem length_available (h : b.WF) : b.available.length = b.filled - b.consumed := by
  obtain ⟨h1, h2⟩ := h
  simp [available]
  omega

theorem new_spec (capacity id : Nat) :
    (new capacity id).id = id ∧ (new capacity id).data.length = capacity ∧
    (new capacity id).consumed = 0 ∧ (new capacity id).filled = 0 ∧
    (new capacity id).WF ∧ (new capacity id).available = [] := by
  refine ⟨rfl, by simp [new], rfl, rfl, ⟨Nat.le_refl 0, by simp [new]⟩, by simp [new, available]⟩

/-- Characterization of a successful `consume`. -/
theorem consume_spec (n : Nat) (hWF : b.WF) (hn : n ≤ b.available.length) :
    b.consume n = some (b.available.take n, { b with consumed := b.consumed + n }) ∧
    ({ b with consumed := b.consumed + n } : BufMut).available = b.available.drop n ∧
    ({ b with consumed := b.consumed + n } : BufMut).WF := by
  obtain ⟨h1, h2⟩ := hWF
  have hlen : b.available.length = b.filled - b.consumed := length_available b ⟨h1, h2⟩
  have hg : b.consumed + n ≤ b.filled := by omega
  refine ⟨?_, ?_, ?_⟩
  · have htake : b.available.take n = (b.data.drop b.consumed).take n := by
      simp only [available, List.take_take]
      congr 1
      omega
    simp [consume, hg, htake]
  · show ((b.data.drop (b.consumed + n)).take (b.filled - (b.consumed + n))) = _
    simp only [available, drop_take_comm, List.drop_drop, Nat.sub_sub,
      Nat.add_comm n b.consumed]
  · exact ⟨hg, h2⟩

/-- Characterization of a successful `append`. -/
theorem append_spec (bs : List Byte) (hWF : b.WF) (hlen : bs.length ≤ b.unfilledLen) :
    b.append bs =
      some { b with data := writeAt b.data b.filled bs, filled := b.filled + bs.length } ∧
    (writeAt b.data b.filled bs).length = b.data.length ∧
    ({ b with data := writeAt b.data b.filled bs, filled := b.filled + bs.length } : BufMut).available
      = b.available ++ bs ∧
    ({ b with data := writeAt b.data b.filled bs, filled := b.filled + bs.length } : BufMut).WF := by
  obtain ⟨h1, h2⟩ := hWF
  have hfit : b.filled + bs.length ≤ b.data.length := by
    unfold unfilledLen at hlen; omega
  have hdlen : (writeAt b.data b.filled bs).length = b.data.length := by
    simp [writeAt]
    omega
  refine ⟨by simp [append, hlen], hdlen, ?_, ?_⟩
  · show ((writeAt b.data b.filled bs).drop b.consumed).take (b.filled + bs.length - b.consumed)
        = b.available ++ bs
    have hP : (b.data.take b.filled).drop b.consumed = b.available := by
      rw [drop_take_comm]; rfl
    have hPlen : ((b.data.take b.filled).drop b.consumed).length = b.filled - b.consumed := by
      simp
      omega
    rw [writeAt, List.append_assoc,
        drop_append_le (b.data.take b.filled) (bs ++ b.data.drop (b.filled + bs.length))
          b.consumed (by simp; omega)]
    have harith : b.filled + bs.length - b.consumed
        = ((b.data.take b.filled).drop b.consumed ++ bs).length := by
      simp [hPlen]; omega
    rw [harith, ← List.append_assoc,
        take_len_append ((b.data.take b.filled).drop b.consumed ++ bs)
          (b.data.drop (b.filled + bs.length)), hP]
  · exact ⟨by simp; omega, by simp [hdlen]; omega⟩

end BufMut

/-! ### Specifications of the growth step -/

namespace SharedReader

variable {σ ε : Type}

/-- Full characterization of `grow`: it always succeeds, allocates with
capacity `max (available.length * 2) initial_capacity` under a fresh
identity, and carries the available bytes over to offset 0. -/
theorem grow_spec (r : SharedReader σ ε) :
    ∃ r' : SharedReader σ ε, r.grow = some r' ∧
      r'.src = r.src ∧ r'.initial_capacity = r.initial_capacity ∧
      r'.buf.id = r.nextId ∧ r'.nextId = r.nextId + 1 ∧
      r'.buf.data.length = max (r.buf.available.length * 2) r.initial_capacity ∧
      r'.buf.consumed = 0 ∧ r'.buf.filled = r.buf.available.length ∧
      r'.buf.available = r.buf.available ∧
      r'.buf.data.take r.buf.available.length = r.buf.available ∧
      r'.buf.WF := by
  set A := r.buf.available with hA
  set cap := max (A.length * 2) r.initial_capacity with hcap
  have hLle : A.length ≤ cap := by
    have := Nat.le_max_left (A.length * 2) r.initial_capacity
    omega
  have hnewWF : (BufMut.new cap r.nextId).WF := (BufMut.new_spec cap r.nextId).2.2.2.2.1
  have hfit : A.length ≤ (BufMut.new cap r.nextId).unfilledLen := by
    simp [BufMut.new, BufMut.unfilledLen]
    omega
  obtain ⟨happ, hdlen, havail, hWF⟩ := BufMut.append_spec (BufMut.new cap r.nextId) A hnewWF hfit
  refine ⟨{ r with
      buf := { BufMut.new cap r.nextId with
        data := writeAt (BufMut.new cap r.nextId).data (BufMut.new cap r.nextId).filled A,
        filled := (BufMut.new cap r.nextId).filled + A.length },
      nextId := r.nextId + 1 }, ?_, rfl, rfl, rfl, rfl, ?_, rfl, ?_, ?_, ?_, hWF⟩
  · show r.grow = _
    simp only [grow, ← hA, ← hcap, happ]
  · simpa [BufMut.new] using hdlen
  · simp [BufMut.new]
  · simpa [BufMut.new, BufMut.available] using havail
  · show (writeAt (List.replicate cap 0) 0 A).take A.length = A
    unfold writeAt
    simp only [List.take_zero, List.nil_append, Nat.zero_add]
    exact take_len_append A _

/-- What `growIf` guarantees: it succeeds, preserves the available bytes,
keeps identities monotone and fresh, and leaves a nonempty unfilled region
whenever the initial capacity is positive. -/
theorem growIf_spec (r r1 : SharedReader σ ε) (h : r.growIf = some r1) :
    r1.buf.available = r.buf.available ∧
    r1.src = r.src ∧ r1.initial_capacity = r.initial_capacity ∧
    r.nextId ≤ r1.nextId ∧
    (r.buf.id < r.nextId → r.buf.id ≤ r1.buf.id ∧ r1.buf.id < r1.nextId) ∧
    (r.buf.WF → r1.buf.WF) ∧
    (1 ≤ r.initial_capacity → r1.buf.filled < r1.buf.data.length) ∧
    r1.buf.consumed ≤ r.buf.consumed := by
  unfold growIf at h
  by_cases hu : r.buf.unfilledLen = 0
  · rw [if_pos hu] at h
    obtain ⟨r', hg, hsrc, hic, hid, hnid, hdlen, hcons, hfill, havail, htake, hWF⟩ :=
      grow_spec r
    rw [hg] at h
    cases h
    have h2L := Nat.le_max_left (r.buf.available.length * 2) r.initial_capacity
    have hicle := Nat.le_max_right (r.buf.available.length * 2) r.initial_capacity
    refine ⟨havail, hsrc, hic, by omega, fun hlt => ⟨by omega, by omega⟩,
      fun _ => hWF, fun hic1 => ?_, by omega⟩
    rw [hfill, hdlen]
    rcases Nat.eq_zero_or_pos r.buf.available.length with hz | hp
    · omega
    · omega
  · rw [if_neg hu] at h
    cases h
    have : r.buf.filled < r.buf.data.length := by
      unfold BufMut.unfilledLen at hu
      omega
    exact ⟨rfl, rfl, rfl, Nat.le_refl _, fun hlt => ⟨Nat.le_refl _, hlt⟩,
      id, fun _ => this, Nat.le_refl _⟩

/-- Characterization of `finishLine` when `len` is within the available
bytes: it consumes exactly `len` bytes and wraps them with the current
buffer's shared handle. -/
theorem finishLine_spec (r : SharedReader σ ε) (len : Nat) (got : List Byte) (eof : Bool)
    (hWF : r.buf.WF) (hlen : len ≤ r.buf.available.length) :
    r.finishLine len got eof =
      .ok ⟨⟨r.buf.id⟩, r.buf.available.take len⟩
        { r with buf := { r.buf with consumed := r.buf.consumed + len } } got eof ∧
    ({ r.buf with consumed := r.buf.consumed + len } : BufMut).available
      = r.buf.available.drop len ∧
    ({ r.buf with consumed := r.buf.consumed + len } : BufMut).WF := by
  obtain ⟨hc, hd, hw⟩ := BufMut.consume_spec r.buf len hWF hlen
  refine ⟨?_, hd, hw⟩
  unfold finishLine
  rw [hc]
  rfl

/-- The main invariant of the accumulation loop: on success the returned
line plus the remaining available bytes account exactly for the available
bytes at entry plus everything the source delivered; identities stay
monotone and fresh; an end-of-stream result drains the available region and
leaves room in the buffer. -/
theorem readLineLoop_ok_spec (S : Source σ ε) :
    ∀ (fuel : Nat) (r : SharedReader σ ε) (len : Nat) (acc : List Byte)
      (line : Bytes) (r' : SharedReader σ ε) (got : List Byte) (eof : Bool),
      readLineLoop S fuel r len acc = .ok line r' got eof →
      r.buf.WF → len = r.buf.available.length → r.buf.id < r.nextId →
      r'.buf.WF ∧ r'.initial_capacity = r.initial_capacity ∧
      (∃ d, got = acc ++ d ∧ line.slice ++ r'.buf.available = r.buf.available ++ d) ∧
      line.buf = ⟨r'.buf.id⟩ ∧
      r.buf.id ≤ r'.buf.id ∧ r.nextId ≤ r'.nextId ∧ r'.buf.id < r'.nextId ∧
      (eof = true → r'.buf.available = [] ∧
        (1 ≤ r.initial_capacity → r'.buf.filled < r'.buf.data.length)) := by
  intro fuel
  induction fuel with
  | zero =>
    intro r len acc line r' got eof h
    simp [readLineLoop] at h
  | succ fuel ih =>
    intro r len acc line r' got eof h hWF hlen hinv
    rw [readLineLoop] at h
    split at h
    · cases h
    rename_i r1 hgi
    obtain ⟨havail1, hsrc1, hic1, hnid1, hidf, hWF1', hroom1, hcons1⟩ := growIf_spec r r1 hgi
    have hWF1 : r1.buf.WF := hWF1' hWF
    obtain ⟨hid1, hfresh1⟩ := hidf hinv
    split at h
    · cases h
    rename_i bs s' hread
    split at h
    · -- end-of-stream branch
      rename_i hbs
      subst hbs
      have hlen1 : len ≤ ({ r1 with src := s' } : SharedReader σ ε).buf.available.length := by
        rw [hlen]
        show r.buf.available.length ≤ r1.buf.available.length
        rw [havail1]
      obtain ⟨hfin, hdrop, hwf'⟩ :=
        finishLine_spec ({ r1 with src := s' }) len acc true hWF1 hlen1
      rw [hfin] at h
      cases h
      have hlenall : len = r1.buf.available.length := by rw [hlen, havail1]
      refine ⟨hwf', hic1, ⟨[], by simp, ?_⟩, rfl, hid1, hnid1, hfresh1, fun _ => ⟨?_, ?_⟩⟩
      · show r1.buf.available.take len ++ _ = r.buf.available ++ []
        rw [hdrop, List.take_append_drop, havail1, List.append_nil]
      · show ({ r1.buf with consumed := r1.buf.consumed + len } : BufMut).available = []
        rw [hdrop, hlenall, List.drop_length]
      · intro hicpos
        exact hroom1 hicpos
    -- at least one byte was delivered
    rename_i hbs
    split at h
    · cases h
    rename_i b2 happq
    by_cases hfit : bs.length ≤ r1.buf.unfilledLen
    case neg =>
      simp [BufMut.append, hfit] at happq
    obtain ⟨happ, hdlen2, havail2, hWF2⟩ := BufMut.append_spec r1.buf bs hWF1 hfit
    rw [happ] at happq
    injection happq with hb2
    have hav2 : b2.available = r1.buf.available ++ bs := by rw [← hb2]; exact havail2
    have hwf2 : b2.WF := by rw [← hb2]; exact hWF2
    have hid2 : b2.id = r1.buf.id := by rw [← hb2]
    have hlen2 : len + bs.length = b2.available.length := by
      rw [hav2, List.length_append, hlen, havail1]
    split at h
    · -- line feed found in the newly filled span
      rename_i i hfind
      have hi : i < bs.length := find_lf_some_lt bs i hfind
      have hlen3 : len + i + 1
          ≤ ({ r1 with src := s', buf := b2 } : SharedReader σ ε).buf.available.length := by
        show len + i + 1 ≤ b2.available.length
        omega
      obtain ⟨hfin, hdrop, hwf'⟩ :=
        finishLine_spec ({ r1 with src := s', buf := b2 }) (len + i + 1) (acc ++ bs) false hwf2 hlen3
      rw [hfin] at h
      cases h
      refine ⟨hwf', hic1, ⟨bs, rfl, ?_⟩, rfl, ?_, hnid1, ?_, by simp⟩
      · rw [show (⟨⟨({ r1 with src := s', buf := b2 } : SharedReader σ ε).buf.id⟩, ({ r1 with src := s', buf := b2 } : SharedReader σ ε).buf.available.take (len + i + 1)⟩ : Bytes).slice = b2.available.take (len + i + 1) from rfl, hdrop]
        show b2.available.take (len + i + 1) ++ b2.available.drop (len + i + 1) = _
        rw [List.take_append_drop, hav2, havail1]
      · show r.buf.id ≤ b2.id
        omega
      · show b2.id < r1.nextId
        omega
    · -- no line feed yet: recurse
      rename_i hfind
      have hwfr2 : ({ r1 with src := s', buf := b2 } : SharedReader σ ε).buf.WF := hwf2
      have hlenr2 : len + bs.length
          = ({ r1 with src := s', buf := b2 } : SharedReader σ ε).buf.available.length := hlen2
      have hinvr2 : ({ r1 with src := s', buf := b2 } : SharedReader σ ε).buf.id
          < ({ r1 with src := s', buf := b2 } : SharedReader σ ε).nextId := by
        show b2.id < r1.nextId
        omega
      obtain ⟨hwf', hic', ⟨d, hgot, hconc⟩, hlineb, hidle, hnidle, hfresh', heof'⟩ :=
        ih _ _ _ line r' got eof h hwfr2 hlenr2 hinvr2
      have hidle' : b2.id ≤ r'.buf.id := hidle
      refine ⟨hwf', by rw [hic', hic1], ⟨bs ++ d, by rw [hgot, List.append_assoc], ?_⟩,
        hlineb, by omega, le_trans hnid1 hnidle, hfresh',
        fun he => ⟨(heof' he).1, fun hicpos => (heof' he).2 (by rwa [hic1])⟩⟩
      calc line.slice ++ r'.buf.available
          = b2.available ++ d := hconc
        _ = r.buf.available ++ (bs ++ d) := by
            rw [hav2, havail1, List.append_assoc]

/-- Error-path invariant of the accumulation loop: on a propagated source
error no bytes were consumed (`consumed` can only drop to 0 at a growth),
and everything delivered so far is still available. -/
theorem readLineLoop_err_spec (S : Source σ ε) :
    ∀ (fuel : Nat) (r : SharedReader σ ε) (len : Nat) (acc : List Byte)
      (e : ε) (r' : SharedReader σ ε) (got : List Byte),
      readLineLoop S fuel r len acc = .err e r' got →
      r.buf.WF →
      r'.buf.consumed ≤ r.buf.consumed ∧
      ∃ d, got = acc ++ d ∧ r'.buf.available = r.buf.available ++ d := by
  intro fuel
  induction fuel with
  | zero =>
    intro r len acc e r' got h
    simp [readLineLoop] at h
  | succ fuel ih =>
    intro r len acc e r' got h hWF
    rw [readLineLoop] at h
    split at h
    · cases h
    rename_i r1 hgi
    obtain ⟨havail1, hsrc1, hic1, hnid1, hidf, hWF1', hroom1, hcons1⟩ := growIf_spec r r1 hgi
    have hWF1 : r1.buf.WF := hWF1' hWF
    split at h
    · -- the source failed: the error is propagated as-is
      rename_i e0 s' hread
      cases h
      exact ⟨hcons1, [], by simp, by rw [havail1, List.append_nil]⟩
    rename_i bs s' hread
    split at h
    · -- end-of-stream produces an ok result, never an error
      rw [finishLine] at h
      split at h <;> cases h
    rename_i hbs
    split at h
    · cases h
    rename_i b2 happq
    by_cases hfit : bs.length ≤ r1.buf.unfilledLen
    case neg =>
      simp [BufMut.append, hfit] at happq
    obtain ⟨happ, hdlen2, havail2, hWF2⟩ := BufMut.append_spec r1.buf bs hWF1 hfit
    rw [happ] at happq
    injection happq with hb2
    have hav2 : b2.available = r1.buf.available ++ bs := by rw [← hb2]; exact havail2
    have hwf2 : b2.WF := by rw [← hb2]; exact hWF2
    have hcons2 : b2.consumed = r1.buf.consumed := by rw [← hb2]
    split at h
    · -- a finished line is an ok result, never an error
      rw [finishLine] at h
      split at h <;> cases h
    · rename_i hfind
      have hwfr2 : ({ r1 with src := s', buf := b2 } : SharedReader σ ε).buf.WF := hwf2
      obtain ⟨hc', d, hgot, havail'⟩ := ih _ _ _ e r' got h hwfr2
      have hc'' : r'.buf.consumed ≤ b2.consumed := hc'
      refine ⟨by omega, bs ++ d, by rw [hgot, List.append_assoc], ?_⟩
      calc r'.buf.available
          = b2.available ++ d := havail'
        _ = r.buf.available ++ (bs ++ d) := by rw [hav2, havail1, List.append_assoc]

/-- Specification of a successful `read_line` call: conservation of bytes,
buffer-identity monotonicity and freshness, and the end-of-stream shape. -/
theorem read_line_ok_spec (S : Source σ ε) (fuel : Nat) (r : SharedReader σ ε)
    (line : Bytes) (r' : SharedReader σ ε) (got : List Byte) (eof : Bool)
    (h : r.read_line S fuel = .ok line r' got eof)
    (hWF : r.buf.WF) (hinv : r.buf.id < r.nextId) :
    r'.buf.WF ∧ r'.initial_capacity = r.initial_capacity ∧
    line.slice ++ r'.buf.available = r.buf.available ++ got ∧
    line.buf = ⟨r'.buf.id⟩ ∧
    r.buf.id ≤ r'.buf.id ∧ r.nextId ≤ r'.nextId ∧ r'.buf.id < r'.nextId ∧
    (eof = true → r'.buf.available = [] ∧
      (1 ≤ r.initial_capacity → r'.buf.filled < r'.buf.data.length)) := by
  rw [read_line] at h
  split at h
  · -- a line feed is already available: no source interaction
    rename_i i hfind
    have hi : i < r.buf.available.length := find_lf_some_lt _ i hfind
    obtain ⟨hfin, hdrop, hwf'⟩ := finishLine_spec r (i + 1) [] false hWF (by omega)
    rw [hfin] at h
    cases h
    refine ⟨hwf', rfl, ?_, rfl, Nat.le_refl _, Nat.le_refl _, hinv, by simp⟩
    rw [show (⟨⟨r.buf.id⟩, r.buf.available.take (i + 1)⟩ : Bytes).slice
        = r.buf.available.take (i + 1) from rfl, hdrop, List.take_append_drop,
      List.append_nil]
  · -- otherwise the accumulation loop runs
    rename_i hfind
    obtain ⟨hwf', hic', ⟨d, hgot, hconc⟩, hlineb, hidle, hnidle, hfresh', heof'⟩ :=
      readLineLoop_ok_spec S fuel r r.buf.available.length [] line r' got eof h hWF rfl hinv
    rw [List.nil_append] at hgot
    subst hgot
    exact ⟨hwf', hic', hconc, hlineb, hidle, hnidle, hfresh', heof'⟩

/-- Specification of a failed `read_line` call: the `consumed` cursor is not
advanced and every byte that was available or delivered is still available,
so the caller can retry. -/
theorem read_line_err_spec (S : Source σ ε) (fuel : Nat) (r : SharedReader σ ε)
    (e : ε) (r' : SharedReader σ ε) (got : List Byte)
    (h : r.read_line S fuel = .err e r' got) (hWF : r.buf.WF) :
    r'.buf.consumed ≤ r.buf.consumed ∧
    r'.buf.available = r.buf.available ++ got := by
  rw [read_line] at h
  split at h
  · rw [finishLine] at h
    split at h <;> cases h
  · obtain ⟨hc, d, hgot, havail'⟩ := readLineLoop_err_spec S fuel r _ [] e r' got h hWF
    rw [List.nil_append] at hgot
    subst hgot
    exact ⟨hc, havail'⟩

end SharedReader

/-- Invariant of a sequence of `read_line` calls: the concatenation of the
returned slices plus what is still available equals the initially available
bytes plus everything the source delivered; if the final call observed
end-of-stream, nothing is left available. -/
theorem readLines_spec (S : Source σ ε) (fuel : Nat) :
    ∀ (n : Nat) (r : SharedReader σ ε) (lines : List Bytes)
      (r' : SharedReader σ ε) (got : List Byte) (flag : Bool),
      readLines S fuel n r = some (lines, r', got, flag) →
      r.buf.WF → r.buf.id < r.nextId →
      (lines.map Bytes.slice).flatten ++ r'.buf.available = r.buf.available ++ got ∧
      r'.buf.WF ∧ r'.buf.id < r'.nextId ∧
      r'.initial_capacity = r.initial_capacity ∧
      (flag = true → 1 ≤ r.initial_capacity → r'.buf.available = []) := by
  intro n
  induction n with
  | zero =>
    intro r lines r' got flag h hWF hinv
    rw [readLines] at h
    cases h
    exact ⟨by simp, hWF, hinv, rfl, by simp⟩
  | succ n ih =>
    intro r lines r' got flag h hWF hinv
    rw [readLines] at h
    split at h
    · rename_i line r1 got1 eof1 hcall
      split at h
      · rename_i lines2 r2 got2 eof2 hrec
        cases h
        obtain ⟨hwf1, hic1, hconc1, hlineb1, hid1, hnid1, hfresh1, heof1⟩ :=
          SharedReader.read_line_ok_spec S fuel r line r1 got1 eof1 hcall hWF hinv
        obtain ⟨hconc2, hwf2, hfresh2, hic2, hflag2⟩ :=
          ih r1 lines2 r' got2 eof2 hrec hwf1 hfresh1
        refine ⟨?_, hwf2, hfresh2, by rw [hic2, hic1], ?_⟩
        · calc ((line :: lines2).map Bytes.slice).flatten ++ r'.buf.available
              = line.slice ++ ((lines2.map Bytes.slice).flatten ++ r'.buf.available) := by
                simp [List.append_assoc]
            _ = line.slice ++ (r1.buf.available ++ got2) := by rw [hconc2]
            _ = (line.slice ++ r1.buf.available) ++ got2 := by rw [← List.append_assoc]
            _ = (r.buf.available ++ got1) ++ got2 := by rw [hconc1]
            _ = r.buf.available ++ (got1 ++ got2) := by rw [List.append_assoc]
        · intro hflag hicpos
          by_cases hn : n = 0
          · subst hn
            simp only [if_pos] at hflag
            rw [readLines] at hrec
            cases hrec
            exact (heof1 hflag).1
          · rw [if_neg hn] at hflag
            exact hflag2 hflag (by rwa [hic1])
      · cases h
    · cases h

/-! ### The self-referential pair (`pair.rs`) -/

/-- The session builder (`BufBuilder` in `pair.rs`): exclusive access to the
reader plus the append-only list of buffers touched. -/
structure BufBuilder (σ ε : Type) where
  reader : SharedReader σ ε
  bufs : List Buf
deriving DecidableEq

/-- Result of `BufBuilder::read_line`: the line slice and the updated
builder, a propagated source error, or abort/fuel exhaustion. -/
inductive BLineRes (σ ε : Type) where
  | ok (slice : List Byte) (b : BufBuilder σ ε)
  | err (e : ε) (b : BufBuilder σ ε)
  | fail

/-- Append a buffer only when it differs from the last tracked entry, as in
`BufBuilder::read_line`. -/
def pushDedup (bufs : List Buf) (x : Buf) : List Buf :=
  if bufs.getLast? = some x then bufs else bufs ++ [x]

namespace BufBuilder

variable {σ ε : Type}

/-- `BufBuilder::read_line`: delegate to the reader, track the buffer the
line came from (comparing only against the last tracked entry), return the
slice. -/
def read_line (b : BufBuilder σ ε) (S : Source σ ε) (fuel : Nat) : BLineRes σ ε :=
  match b.reader.read_line S fuel with
  | .ok line r' _ _ => .ok line.slice ⟨r', pushDedup b.bufs line.buf⟩
  | .err e r' _ => .err e ⟨r', b.bufs⟩
  | .fail => .fail

end BufBuilder

/-- Parsed data paired with the buffers it was parsed from (`BufPair`). -/
structure BufPair (T : Type) where
  dependent : T
  owner : List Buf

namespace BufPair

variable {σ ε E T : Type}

/-- `BufPair::new`: run the construction function on a fresh session; on
success pair the value with the tracked buffers, on failure return the error
unchanged and produce no pair. -/
def new (r : SharedReader σ ε) (make : BufBuilder σ ε → Except E T × BufBuilder σ ε) :
    Except E (BufPair T) × SharedReader σ ε :=
  match make ⟨r, []⟩ with
  | (.error e, b') => (.error e, b'.reader)
  | (.ok t, b') => (.ok ⟨t, b'.bufs⟩, b'.reader)

end BufPair

/-- Drive `n` successive session `read_line` calls, collecting the returned
slices, the identity of the buffer each line came from (observed through
`buffer()`), and the final builder. -/
def buildN {σ ε : Type} (S : Source σ ε) (fuel : Nat) :
    Nat → BufBuilder σ ε → Option (List (List Byte) × List Buf × BufBuilder σ ε)
  | 0, b => some ([], [], b)
  | n + 1, b =>
    match b.read_line S fuel with
    | .ok s b' =>
      match buildN S fuel n b' with
      | some (ls, touched, b'') => some (s :: ls, b'.reader.buffer :: touched, b'')
      | none => none
    | _ => none

/-- Collapse immediately-adjacent duplicates, starting from a last element
`a` already in the list. -/
def collapseFrom (a : Buf) : List Buf → List Buf
  | [] => [a]
  | b :: l => if a = b then collapseFrom b l else a :: collapseFrom b l

/-! ### Builder-run lemmas -/

theorem getLast?_append_single {α : Type} (l : List α) (a : α) :
    (l ++ [a]).getLast? = some a := by
  rw [List.getLast?_append_cons l a []]
  rfl

/-- Running `pushDedup` over a list is `collapseFrom` anchored at the last
pushed element. -/
theorem foldl_pushDedup_append (l : List Buf) :
    ∀ (acc : List Buf) (a : Buf),
      l.foldl pushDedup (acc ++ [a]) = acc ++ collapseFrom a l := by
  induction l with
  | nil => intro acc a; rfl
  | cons b l ih =>
    intro acc a
    rw [List.foldl_cons]
    by_cases hab : a = b
    · subst hab
      rw [show pushDedup (acc ++ [a]) a = acc ++ [a] by
          simp [pushDedup, getLast?_append_single]]
      rw [ih acc a, collapseFrom, if_pos rfl]
    · rw [show pushDedup (acc ++ [a]) b = (acc ++ [a]) ++ [b] by
          simp [pushDedup, getLast?_append_single, hab]]
      rw [ih (acc ++ [a]) b, collapseFrom, if_neg hab, List.append_assoc,
        List.singleton_append]

theorem collapseFrom_head (a : Buf) (l : List Buf) :
    ∃ t, collapseFrom a l = a :: t := by
  induction l generalizing a with
  | nil => exact ⟨[], rfl⟩
  | cons b l ih =>
    by_cases hab : a = b
    · subst hab
      rw [collapseFrom, if_pos rfl]
      exact ih a
    · rw [collapseFrom, if_neg hab]
      exact ⟨collapseFrom b l, rfl⟩

theorem chain_le_all (b : Buf) (l : List Buf)
    (h : List.Chain' (fun x y => x.id ≤ y.id) (b :: l)) :
    ∀ x ∈ l, b.id ≤ x.id := by
  induction l generalizing b with
  | nil => intro x hx; cases hx
  | cons c l ih =>
    rw [List.chain'_cons] at h
    intro x hx
    rcases List.mem_cons.mp hx with hx | hx
    · simpa [hx] using h.1
    · exact le_trans h.1 (ih c h.2 x hx)

/-- For a list whose ids are non-decreasing, collapsing adjacent duplicates
computes exactly the distinct elements (`dedup`), in strictly increasing id
order. -/
theorem collapseFrom_chain (a : Buf) (l : List Buf)
    (h : List.Chain' (fun x y => x.id ≤ y.id) (a :: l)) :
    collapseFrom a l = (a :: l).dedup ∧
    List.Chain' (fun x y => x.id < y.id) (collapseFrom a l) := by
  induction l generalizing a with
  | nil =>
    constructor
    · rw [collapseFrom, List.dedup_cons_of_not_mem (by simp), List.dedup_nil]
    · simp [collapseFrom]
  | cons b l ih =>
    rw [List.chain'_cons] at h
    obtain ⟨hab, h'⟩ := h
    by_cases hEq : a = b
    · rw [collapseFrom, if_pos hEq]
      obtain ⟨hd, hc⟩ := ih b h'
      refine ⟨?_, hc⟩
      rw [hd, List.dedup_cons_of_mem (show a ∈ b :: l by simp [hEq])]
    · have hlt : a.id < b.id := by
        have hne : a.id ≠ b.id := fun hid => hEq (by cases a; cases b; simp_all)
        omega
      have hnotmem : a ∉ b :: l := by
        intro hmem
        rcases hmem with _ | ⟨_, hmem⟩
        · exact absurd rfl hEq
        · have := chain_le_all b l h' a hmem
          omega
      rw [collapseFrom, if_neg hEq]
      obtain ⟨hd, hc⟩ := ih b h'
      refine ⟨?_, ?_⟩
      · rw [hd, List.dedup_cons_of_not_mem hnotmem]
      · obtain ⟨t, ht⟩ := collapseFrom_head b l
        rw [ht] at hc ⊢
        rw [List.chain'_cons]
        exact ⟨hlt, hc⟩

/-- Per-step and whole-run invariant of `buildN`: the tracked buffer list is
the fold of the adjacent-dedup push over the touched buffers, and the
touched buffers have non-decreasing allocation ids. -/
theorem buildN_spec (S : Source σ ε) (fuel : Nat) :
    ∀ (n : Nat) (b : BufBuilder σ ε) (ls : List (List Byte))
      (touched : List Buf) (b' : BufBuilder σ ε),
      buildN S fuel n b = some (ls, touched, b') →
      b.reader.buf.WF → b.reader.buf.id < b.reader.nextId →
      b'.bufs = touched.foldl pushDedup b.bufs ∧
      b'.reader.buf.WF ∧ b'.reader.buf.id < b'.reader.nextId ∧
      List.Chain' (fun x y => x.id ≤ y.id) (⟨b.reader.buf.id⟩ :: touched) := by
  intro n
  induction n with
  | zero =>
    intro b ls touched b' h hWF hinv
    rw [buildN] at h
    cases h
    exact ⟨rfl, hWF, hinv, by simp⟩
  | succ n ih =>
    intro b ls touched b' h hWF hinv
    rw [buildN] at h
    split at h
    · rename_i s b1 hcall
      rw [BufBuilder.read_line] at hcall
      split at hcall
      · rename_i line r1 got1 eof1 hrl
        cases hcall
        obtain ⟨hwf1, hic1, hconc1, hlineb1, hid1, hnid1, hfresh1, heof1⟩ :=
          SharedReader.read_line_ok_spec S fuel b.reader line r1 got1 eof1 hrl hWF hinv
        split at h
        · rename_i ls2 touched2 b2 hrec
          cases h
          obtain ⟨hfold, hwf2, hfresh2, hchain2⟩ :=
            ih ⟨r1, pushDedup b.bufs line.buf⟩ ls2 touched2 b' hrec hwf1 hfresh1
          refine ⟨?_, hwf2, hfresh2, ?_⟩
          · rw [show (⟨r1, pushDedup b.bufs line.buf⟩ : BufBuilder σ ε).reader.buffer
                = (⟨r1.buf.id⟩ : Buf) from rfl]
            rw [List.foldl_cons]
            rw [hfold]
            rw [show (⟨r1, pushDedup b.bufs line.buf⟩ : BufBuilder σ ε).bufs
                = pushDedup b.bufs line.buf from rfl, hlineb1]
          · rw [show (⟨r1, pushDedup b.bufs line.buf⟩ : BufBuilder σ ε).reader.buffer
                = (⟨r1.buf.id⟩ : Buf) from rfl]
            rw [List.chain'_cons]
            refine ⟨hid1, ?_⟩
            exact hchain2
        · cases h
      · cases hcall
      · cases hcall
    · cases h

/-- Runs of `buildN` on a fresh session (empty tracked list, as created by
`BufPair.new`) over any well-formed reader: the tracked list is the
adjacent-dedup fold of the touched buffers, equals their full dedup, and is
strictly increasing in allocation id. -/
theorem buildN_session_spec (S : Source σ ε) (fuel n : Nat) (r : SharedReader σ ε)
    (ls : List (List Byte)) (touched : List Buf) (b' : BufBuilder σ ε)
    (h : buildN S fuel n ⟨r, []⟩ = some (ls, touched, b'))
    (hWF : r.buf.WF) (hinv : r.buf.id < r.nextId) :
    b'.bufs = touched.foldl pushDedup [] ∧
    b'.bufs = touched.dedup ∧
    List.Chain' (fun x y => x.id < y.id) b'.bufs := by
  obtain ⟨hfold, hwf', hinv', hchain⟩ :=
    buildN_spec S fuel n ⟨r, []⟩ ls touched b' h hWF hinv
  cases touched with
  | nil =>
    refine ⟨hfold, ?_, ?_⟩
    · simpa using hfold
    · rw [hfold]
      simp
  | cons t rest =>
    have hchain' : List.Chain' (fun x y => x.id ≤ y.id) (t :: rest) :=
      (List.chain'_cons.mp hchain).2
    obtain ⟨hd, hc⟩ := collapseFrom_chain t rest hchain'
    have hfold2 : (t :: rest).foldl pushDedup ([] : List Buf) = collapseFrom t rest := by
      rw [List.foldl_cons, show pushDedup [] t = [t] by simp [pushDedup],
        show ([t] : List Buf) = [] ++ [t] from rfl, foldl_pushDedup_append rest [] t,
        List.nil_append]
    refine ⟨hfold, ?_, ?_⟩
    · rw [hfold, hfold2, hd]
    · rw [hfold, hfold2]
      exact hc

/-! ### Claim theorems -/

/-- C8: `consume(n)` requires `consumed + n ≤ filled` and `fill(n)` requires
`filled + n ≤ capacity`; under these preconditions the abort branch is
unreachable, each operation advances its cursor by exactly `n` and returns
the slice `[consumed, consumed + n)` resp. `[filled, filled + n)`;
violating a precondition aborts (`none`) rather than returning a value. -/
theorem C8_consume_fill_contracts (b : BufMut) (n : Nat) (hcap : b.filled ≤ b.data.length) :
    (b.consumed + n ≤ b.filled →
      b.consume n = some ((b.data.drop b.consumed).take n, { b with consumed := b.consumed + n }) ∧
      ((b.data.drop b.consumed).take n).length = n ∧
      (∀ i, i < n → ((b.data.drop b.consumed).take n)[i]? = b.data[b.consumed + i]?)) ∧
    (¬ b.consumed + n ≤ b.filled → b.consume n = none) ∧
    (b.filled + n ≤ b.data.length →
      b.fill n = some ((b.data.drop b.filled).take n, { b with filled := b.filled + n }) ∧
      ((b.data.drop b.filled).take n).length = n ∧
      (∀ i, i < n → ((b.data.drop b.filled).take n)[i]? = b.data[b.filled + i]?)) ∧
    (¬ b.filled + n ≤ b.data.length → b.fill n = none) := by
  refine ⟨fun hg => ⟨by simp [BufMut.consume, hg], ?_, ?_⟩,
    fun hg => by simp [BufMut.consume, hg],
    fun hg => ⟨by simp [BufMut.fill, hg], ?_, ?_⟩,
    fun hg => by simp [BufMut.fill, hg]⟩
  · simp
    omega
  · intro i hi
    rw [List.getElem?_take_of_lt hi, List.getElem?_drop]
  · simp
    omega
  · intro i hi
    rw [List.getElem?_take_of_lt hi, List.getElem?_drop]

/-- C9: the invariant `consumed ≤ filled ≤ capacity` holds after
construction and is preserved by `consume`, `fill` and `append`, and both
cursors are monotonically non-decreasing across each operation. -/
theorem C9_cursor_invariant (capacity id n : Nat) (b b' : BufMut) (s bs : List Byte) :
    (BufMut.new capacity id).WF ∧
    (b.WF → b.consume n = some (s, b') →
      b'.WF ∧ b.consumed ≤ b'.consumed ∧ b.filled ≤ b'.filled) ∧
    (b.WF → b.fill n = some (s, b') →
      b'.WF ∧ b.consumed ≤ b'.consumed ∧ b.filled ≤ b'.filled) ∧
    (b.WF → b.append bs = some b' →
      b'.WF ∧ b.consumed ≤ b'.consumed ∧ b.filled ≤ b'.filled) := by
  refine ⟨⟨Nat.le_refl 0, by simp [BufMut.new]⟩, ?_, ?_, ?_⟩
  · intro hWF h
    rw [BufMut.consume] at h
    split at h
    · cases h
      exact ⟨⟨by assumption, hWF.2⟩, Nat.le_add_right _ _, Nat.le_refl _⟩
    · cases h
  · intro hWF h
    rw [BufMut.fill] at h
    split at h
    · cases h
      exact ⟨⟨le_trans hWF.1 (Nat.le_add_right _ _), by assumption⟩,
        Nat.le_refl _, Nat.le_add_right _ _⟩
    · cases h
  · intro hWF h
    rw [BufMut.append] at h
    split at h
    · rename_i hg
      cases h
      obtain ⟨hW1, hW2⟩ := hWF
      have hfit : b.filled + bs.length ≤ b.data.length := by
        unfold BufMut.unfilledLen at hg
        omega
      have hdlen : (writeAt b.data b.filled bs).length = b.data.length := by
        simp [writeAt]
        omega
      exact ⟨⟨le_trans hW1 (Nat.le_add_right _ _), by rw [hdlen]; exact hfit⟩,
        Nat.le_refl _, Nat.le_add_right _ _⟩
    · cases h

/-- C9 witness: the invariant theorem applied at a concrete handle and
consume step. -/
theorem C9_cursor_invariant_witness :
    (⟨0, [7, 8, 9], 2, 2⟩ : BufMut).WF ∧ (1 : Nat) ≤ 2 ∧ (2 : Nat) ≤ 2 ∧
    (BufMut.new 3 0).WF := by
  have h := C9_cursor_invariant 3 0 1 ⟨0, [7, 8, 9], 1, 2⟩ ⟨0, [7, 8, 9], 2, 2⟩ [8] []
  have h2 := h.2.1 (by decide) (by decide)
  exact ⟨h2.1, h2.2.1, h2.2.2, h.1⟩

/-- C8 witness: the contracts evaluated at a concrete handle and count. -/
theorem C8_consume_fill_contracts_witness :
    (⟨0, [7, 8, 9, 4], 1, 3⟩ : BufMut).consume 1
      = some ((([7, 8, 9, 4] : List Byte).drop 1).take 1, ⟨0, [7, 8, 9, 4], 2, 3⟩) ∧
    ((([7, 8, 9, 4] : List Byte).drop 1).take 1).length = 1 ∧
    ((([7, 8, 9, 4] : List Byte).drop 1).take 1)[0]? = ([7, 8, 9, 4] : List Byte)[1 + 0]? ∧
    (⟨0, [7, 8, 9, 4], 1, 3⟩ : BufMut).fill 1
      = some ((([7, 8, 9, 4] : List Byte).drop 3).take 1, ⟨0, [7, 8, 9, 4], 1, 4⟩) := by
  have h := C8_consume_fill_contracts ⟨0, [7, 8, 9, 4], 1, 3⟩ 1 (by decide)
  obtain ⟨hcon, _, hfill, _⟩ := h
  obtain ⟨h1, h2, h3⟩ := hcon (by decide)
  exact ⟨h1, h2, h3 0 (by decide), (hfill (by decide)).1⟩

/-- C2: when `unfilled()` is empty, growth allocates a new buffer of
capacity exactly `max (2 * available.length) initial_capacity`, the
previously available bytes appear unchanged at offset 0 of the new buffer,
the fill handle is replaced by one over the new buffer (cursors reset to the
carried bytes), and the new buffer identity differs from the old one. -/
theorem C2_growth_spec (r : SharedReader σ ε)
    (hu : r.buf.unfilledLen = 0) (hid : r.buf.id < r.nextId) :
    (r.grow.map fun r' =>
        (r'.buf.data.length, r'.buf.consumed, r'.buf.filled,
          r'.buf.data.take r.buf.available.length, r'.buf.available,
          r'.buf.id == r.buf.id, r'.buf.id))
      = some (max (2 * r.buf.available.length) r.initial_capacity, 0,
          r.buf.available.length, r.buf.available, r.buf.available, false, r.nextId) := by
  obtain ⟨r', hg, hsrc, hic, hidn, hnid, hdlen, hcons, hfill, havail, htake, hWF⟩ :=
    SharedReader.grow_spec r
  rw [hg]
  simp only [Option.map_some']
  rw [hdlen, hcons, hfill, havail, htake, hidn]
  have hne : (r.nextId == r.buf.id) = false := by
    rw [beq_eq_false_iff_ne]
    omega
  rw [hne, Nat.mul_comm]

/-- C2 witness: growth of a concrete full handle. -/
theorem C2_growth_spec_witness :
    ((⟨(), ⟨0, [97, 10], 0, 2⟩, 3, 1⟩ : SharedReader Unit Unit).grow.map fun r' =>
        (r'.buf.data.length, r'.buf.consumed, r'.buf.filled,
          r'.buf.data.take 2, r'.buf.available, r'.buf.id == 0, r'.buf.id))
      = some (4, 0, 2, [97, 10], [97, 10], false, 1) :=
  C2_growth_spec (⟨(), ⟨0, [97, 10], 0, 2⟩, 3, 1⟩ : SharedReader Unit Unit)
    (by decide) (by decide)

/-- C7: when the construction function fails inside a session, `BufPair.new`
returns that exact error unchanged and produces no `BufPair`. -/
theorem C7_make_error_propagates {E T : Type} (r : SharedReader σ ε)
    (make : BufBuilder σ ε → Except E T × BufBuilder σ ε)
    (e : E) (b' : BufBuilder σ ε)
    (h : make ⟨r, []⟩ = (Except.error e, b')) :
    BufPair.new r make = (Except.error e, b'.reader) := by
  rw [BufPair.new, h]

/-- C7 witness: a concretely failing construction function. -/
theorem C7_make_error_propagates_witness :
    (BufPair.new
        (⟨(), ⟨0, [0, 0], 0, 0⟩, 2, 1⟩ : SharedReader Unit Unit)
        (fun b => ((Except.error 3 : Except Nat Nat), b)))
      = (Except.error 3,
          (⟨(⟨(), ⟨0, [0, 0], 0, 0⟩, 2, 1⟩ : SharedReader Unit Unit), []⟩ : BufBuilder Unit Unit).reader) :=
  C7_make_error_propagates (⟨(), ⟨0, [0, 0], 0, 0⟩, 2, 1⟩ : SharedReader Unit Unit)
    (fun b => (Except.error 3, b)) 3 ⟨(⟨(), ⟨0, [0, 0], 0, 0⟩, 2, 1⟩ : SharedReader Unit Unit), []⟩ rfl

/-- C1: for every byte source and positive initial capacity, concatenating
the byte contents of the slices returned by successive `read_line` calls,
up to and including the end-of-stream call, reproduces exactly the bytes
the source delivered, with no loss or duplication. -/
theorem C1_byte_conservation (S : Source σ ε) (s : σ) (ic fuel n : Nat)
    (lines : List Bytes) (r' : SharedReader σ ε) (got : List Byte)
    (hic : 1 ≤ ic)
    (h : readLines S fuel n (SharedReader.new s ic) = some (lines, r', got, true)) :
    (lines.map Bytes.slice).flatten = got := by
  have hWF : (SharedReader.new s ic : SharedReader σ ε).buf.WF :=
    ⟨Nat.le_refl 0, by simp [SharedReader.new, BufMut.new]⟩
  obtain ⟨hconc, hwf', hfresh', hic', hflag⟩ :=
    readLines_spec S fuel n (SharedReader.new s ic) lines r' got true h hWF Nat.zero_lt_one
  have hav0 : (SharedReader.new s ic : SharedReader σ ε).buf.available = [] := by
    simp [SharedReader.new, BufMut.new, BufMut.available]
  have hav' : r'.buf.available = [] := hflag rfl hic
  rw [hav0, hav'] at hconc
  simpa using hconc

/-- C1 witness: a two-line source, read to end-of-stream. -/
theorem C1_byte_conservation_witness :
    (([⟨⟨0⟩, [97, 10]⟩, ⟨⟨1⟩, []⟩] : List Bytes).map Bytes.slice).flatten = [97, 10] :=
  C1_byte_conservation (limitSource 8 : Source (List Byte) Unit) (strBytes "a\n") 2 50 2
    [⟨⟨0⟩, [97, 10]⟩, ⟨⟨1⟩, []⟩] ⟨[], ⟨1, [0, 0], 0, 0⟩, 2, 2⟩ [97, 10]
    (by decide) (by decide)

/-- C5: (i) a `read_line` call that observes end-of-stream leaves the
reader with no available bytes and room in the buffer; (ii) in any such
state, with the source still at end-of-stream, `read_line` returns an empty
slice of the current buffer and leaves the reader completely unchanged —
so every subsequent call returns an empty slice with the same buffer
identity as the previous call's result. -/
theorem C5_eof_idempotent :
    (∀ (S : Source σ ε) (fuel : Nat) (r : SharedReader σ ε)
        (line : Bytes) (r' : SharedReader σ ε) (got : List Byte),
      r.read_line S fuel = .ok line r' got true →
      r.buf.WF → r.buf.id < r.nextId → 1 ≤ r.initial_capacity →
      r'.buf.available = [] ∧ r'.buf.filled < r'.buf.data.length) ∧
    (∀ (S : Source σ ε) (fuel : Nat) (r : SharedReader σ ε),
      r.buf.consumed ≤ r.buf.filled →
      r.buf.available = [] →
      r.buf.filled < r.buf.data.length →
      (∀ n, S.read r.src n = (.bytes [], r.src)) →
      r.read_line S (fuel + 1) = .ok ⟨⟨r.buf.id⟩, []⟩ r [] true) := by
  constructor
  · intro S fuel r line r' got h hWF hinv hic
    obtain ⟨_, _, _, _, _, _, _, heof⟩ :=
      SharedReader.read_line_ok_spec S fuel r line r' got true h hWF hinv
    exact ⟨(heof rfl).1, (heof rfl).2 hic⟩
  · intro S fuel r hWF hav hroom heof
    have h1 : find_lf r.buf.available = none := by rw [hav]; rfl
    have hun : r.buf.unfilledLen ≠ 0 := by
      unfold BufMut.unfilledLen
      omega
    have hgrow : r.growIf = some r := by
      rw [SharedReader.growIf, if_neg hun]
    have hcons : r.buf.consume 0 = some ([], r.buf) := by
      rw [BufMut.consume, if_pos (by omega)]
      rfl
    rw [SharedReader.read_line, h1]
    show SharedReader.readLineLoop S (fuel + 1) r r.buf.available.length [] = _
    rw [SharedReader.readLineLoop, hgrow]
    show (match S.read r.src r.buf.unfilledLen with
      | (.error e, s') => LineRes.err e { r with src := s' } []
      | (.bytes bs, s') =>
        if bs = [] then SharedReader.finishLine { r with src := s' } r.buf.available.length [] true
        else
          match r.buf.append bs with
          | none => LineRes.fail
          | some b2 =>
            match find_lf bs with
            | some i =>
              SharedReader.finishLine { r with src := s', buf := b2 }
                (r.buf.available.length + i + 1) ([] ++ bs) false
            | none =>
              SharedReader.readLineLoop S fuel { r with src := s', buf := b2 }
                (r.buf.available.length + bs.length) ([] ++ bs)) = _
    rw [heof r.buf.unfilledLen]
    show SharedReader.finishLine { r with src := r.src } r.buf.available.length [] true = _
    rw [show ({ r with src := r.src } : SharedReader σ ε) = r from rfl]
    rw [show r.buf.available.length = 0 by rw [hav]; rfl]
    rw [SharedReader.finishLine, hcons]
    rfl

/-- C5 witness: an end-of-stream source over a drained reader. -/
theorem C5_eof_idempotent_witness :
    (⟨(), ⟨5, [0, 0, 0], 1, 1⟩, 3, 6⟩ : SharedReader Unit Unit).read_line
        ⟨fun s _ => (.bytes [], s)⟩ 5
      = .ok ⟨⟨5⟩, []⟩ (⟨(), ⟨5, [0, 0, 0], 1, 1⟩, 3, 6⟩ : SharedReader Unit Unit) [] true :=
  C5_eof_idempotent.2 ⟨fun s _ => (.bytes [], s)⟩ 4
    (⟨(), ⟨5, [0, 0, 0], 1, 1⟩, 3, 6⟩ : SharedReader Unit Unit)
    (by decide) (by decide) (by decide) (fun _ => rfl)

/-- C6: a source error is returned by `read_line` exactly as the source
produced it, no slice is produced, and the reader is left consistent for a
retry: the consumed cursor is not advanced and all available or delivered
bytes remain available. -/
theorem C6_error_propagation :
    (∀ (S : Source σ ε) (fuel : Nat) (r : SharedReader σ ε) (e : ε)
        (r' : SharedReader σ ε) (got : List Byte),
      r.read_line S fuel = .err e r' got → r.buf.WF →
      r'.buf.consumed ≤ r.buf.consumed ∧ r'.buf.available = r.buf.available ++ got) ∧
    (∀ (S : Source σ ε) (fuel : Nat) (r : SharedReader σ ε) (e : ε) (s' : σ),
      find_lf r.buf.available = none → r.buf.unfilledLen ≠ 0 →
      S.read r.src r.buf.unfilledLen = (.error e, s') →
      r.read_line S (fuel + 1) = .err e { r with src := s' } []) := by
  constructor
  · intro S fuel r e r' got h hWF
    exact SharedReader.read_line_err_spec S fuel r e r' got h hWF
  · intro S fuel r e s' hfind hun hread
    have hgrow : r.growIf = some r := by
      rw [SharedReader.growIf, if_neg hun]
    rw [SharedReader.read_line, hfind]
    show SharedReader.readLineLoop S (fuel + 1) r r.buf.available.length [] = _
    rw [SharedReader.readLineLoop, hgrow]
    show (match S.read r.src r.buf.unfilledLen with
      | (.error e, s') => LineRes.err e { r with src := s' } []
      | (.bytes bs, s') =>
        if bs = [] then SharedReader.finishLine { r with src := s' } r.buf.available.length [] true
        else
          match r.buf.append bs with
          | none => LineRes.fail
          | some b2 =>
            match find_lf bs with
            | some i =>
              SharedReader.finishLine { r with src := s', buf := b2 }
                (r.buf.available.length + i + 1) ([] ++ bs) false
            | none =>
              SharedReader.readLineLoop S fuel { r with src := s', buf := b2 }
                (r.buf.available.length + bs.length) ([] ++ bs)) = _
    rw [hread]

/-- C6 witness: a concrete always-failing source. -/
theorem C6_error_propagation_witness :
    ((⟨(), ⟨0, [0, 0], 0, 0⟩, 2, 1⟩ : SharedReader Unit Nat).read_line
        ⟨fun s _ => (.error 7, s)⟩ 5
      = .err 7 (⟨(), ⟨0, [0, 0], 0, 0⟩, 2, 1⟩ : SharedReader Unit Nat) []) ∧
    ((0 : Nat) ≤ 0 ∧ ([] : List Byte) = [] ++ []) := by
  have h2 := C6_error_propagation.2 (⟨fun s _ => (.error 7, s)⟩ : Source Unit Nat) 4
    (⟨(), ⟨0, [0, 0], 0, 0⟩, 2, 1⟩ : SharedReader Unit Nat) 7 () rfl (by decide) rfl
  have h1 := C6_error_propagation.1 (⟨fun s _ => (.error 7, s)⟩ : Source Unit Nat) 5
    (⟨(), ⟨0, [0, 0], 0, 0⟩, 2, 1⟩ : SharedReader Unit Nat) 7
    (⟨(), ⟨0, [0, 0], 0, 0⟩, 2, 1⟩ : SharedReader Unit Nat) [] h2 (by decide)
  exact ⟨h2, h1⟩

/-- C4: a construction run of `n` session `read_line` calls over a fresh
reader yields an owner list that is the adjacent-only dedup fold of the
touched buffers; because the touched buffers are monotone in allocation id,
this equals the full dedup: exactly one entry per distinct buffer, ordered
by first appearance (strictly increasing allocation id). -/
theorem C4_owner_list (S : Source σ ε) (fuel n : Nat) (r : SharedReader σ ε)
    (ls : List (List Byte)) (touched : List Buf) (b' : BufBuilder σ ε)
    (h : buildN S fuel n ⟨r, []⟩ = some (ls, touched, b'))
    (hWF : r.buf.WF) (hinv : r.buf.id < r.nextId) :
    b'.bufs = touched.foldl pushDedup [] ∧
    b'.bufs = touched.dedup ∧
    b'.bufs.length = touched.toFinset.card ∧
    List.Chain' (fun x y => x.id < y.id) b'.bufs := by
  obtain ⟨hfold, hd, hc⟩ := buildN_session_spec S fuel n r ls touched b' h hWF hinv
  refine ⟨hfold, hd, ?_, hc⟩
  rw [hd, List.card_toFinset]

/-- C4 witness: two lines from two distinct buffers. -/
theorem C4_owner_list_witness :
    ([⟨0⟩, ⟨1⟩] : List Buf) = ([⟨0⟩, ⟨1⟩] : List Buf).dedup ∧
    ([⟨0⟩, ⟨1⟩] : List Buf).length = ([⟨0⟩, ⟨1⟩] : List Buf).toFinset.card := by
  have h := C4_owner_list (limitSource 8 : Source (List Byte) Unit) 50 2
    (SharedReader.new (strBytes "a\nb\n") 2) [[97, 10], [98, 10]] [⟨0⟩, ⟨1⟩]
    ⟨⟨[], ⟨1, [98, 10], 2, 2⟩, 2, 2⟩, [⟨0⟩, ⟨1⟩]⟩ (by decide) (by decide) (by decide)
  exact ⟨h.2.1, h.2.2.1⟩

/-- C10: because a replaced buffer never becomes current again (allocation
ids are strictly increasing across growth), the owner list accumulated by a
session over one reader is pairwise distinct by identity, even though the
dedup compares only against the last entry. -/
theorem C10_owner_nodup (S : Source σ ε) (fuel n : Nat) (r : SharedReader σ ε)
    (ls : List (List Byte)) (touched : List Buf) (b' : BufBuilder σ ε)
    (h : buildN S fuel n ⟨r, []⟩ = some (ls, touched, b'))
    (hWF : r.buf.WF) (hinv : r.buf.id < r.nextId) :
    b'.bufs.Nodup := by
  obtain ⟨hfold, hd, hc⟩ := buildN_session_spec S fuel n r ls touched b' h hWF hinv
  rw [hd]
  exact touched.nodup_dedup

/-- C10 witness: the concrete two-buffer run is duplicate-free. -/
theorem C10_owner_nodup_witness : ([⟨0⟩, ⟨1⟩] : List Buf).Nodup :=
  C10_owner_nodup (limitSource 8 : Source (List Byte) Unit) 50 2
    (SharedReader.new (strBytes "a\nb\n") 2) [[97, 10], [98, 10]] [⟨0⟩, ⟨1⟩]
    ⟨⟨[], ⟨1, [98, 10], 2, 2⟩, 2, 2⟩, [⟨0⟩, ⟨1⟩]⟩ (by decide) (by decide) (by decide)

/-- The five-paragraph source text of the `read_line` test in `tests.rs`. -/
def loremText : String :=
  "Lorem ipsum dolor sit amet,\nconsectetur adipiscing elit,\nsed do eiusmod tempor incididunt ut labore et dolore magna aliqua.\n\nUt enim ad minim veniam, quis nostrud exercitation ullamco laboris nisi ut aliquip ex ea commodo consequat."

set_option maxRecDepth 100000 in
set_option maxHeartbeats 1000000 in
/-- C3 counterexample: in the concrete scenario (8-byte reads, initial
capacity 100), the buffer ids of the first three lines are 0, 0, 1 — the
third line does NOT come from the same buffer as the first two, refuting
"the first three read_line results come from one buffer by identity". -/
theorem C3_counterexample :
    ((readLines (limitSource 8 : Source (List Byte) Unit) 100 3
        (SharedReader.new (strBytes loremText) 100)).map
      (fun p => p.1.map fun b => b.buf.id)) = some [0, 0, 1] ∧ (0 : Nat) ≠ 1 :=
  ⟨by decide, by decide⟩

set_option maxRecDepth 100000 in
set_option maxHeartbeats 2000000 in
/-- C3 amended: in the concrete scenario, the first two lines come from one
buffer, the third line (growth having been triggered mid-long-line) comes
from a different buffer than the second, the fourth shares the third's
buffer, the fifth comes from yet another buffer, and the call after the
last line returns an empty slice whose buffer identity equals the last
line's buffer (the run ends at end-of-stream). -/
theorem C3_scenario_amended :
    ((readLines (limitSource 8 : Source (List Byte) Unit) 100 6
        (SharedReader.new (strBytes loremText) 100)).map
      (fun p => (p.1.map fun b => (b.buf.id, b.slice), p.2.2.2)))
      = some ([(0, strBytes "Lorem ipsum dolor sit amet,\n"),
          (0, strBytes "consectetur adipiscing elit,\n"),
          (1, strBytes "sed do eiusmod tempor incididunt ut labore et dolore magna aliqua.\n"),
          (1, [10]),
          (3, strBytes "Ut enim ad minim veniam, quis nostrud exercitation ullamco laboris nisi ut aliquip ex ea commodo consequat."),
          (3, [])], true) := by
  decide

end SelfRef
